import Mathlib

/-!
Verification development for the core leak-classification algorithm of
`coreleak.py`: block model, reference-graph construction, the memoized
recursive status resolution (`Block.get_status`) and the aggregation
performed by `CoreLeak.analyze`.

Statuses are the integers 0..5 exactly as in the source
(`STATUS_UNKNOWN = 0` .. `STATUS_ROOT = 5`).  Blocks are identified by
their index in the session's block list (Python object identity).  The
mutable per-block `status` field is modelled as an explicit state
`Nat → Nat` mapping block index to current status, threaded through every
call.  Python's unbounded recursion is modelled with a fuel parameter:
`none` means the recursion did not complete within the given fuel, and a
computation that returns `none` for every fuel diverges (the Python
program would hit `RecursionError`).
-/

def STATUS_UNKNOWN : Nat := 0
def STATUS_INDIRECTLY_LOST : Nat := 1
def STATUS_DIRECTLY_LOST : Nat := 2
def STATUS_INDIRECTLY_REACHABLE : Nat := 3
def STATUS_DIRECTLY_REACHABLE : Nat := 4
def STATUS_ROOT : Nat := 5

/-- A block as built by `Block.__init__`: base address, the word view
`self.data` (list of machine words), `self.size` and the current
`self.status`.  Here `status` is the status the block was created with;
the evolving status lives in the explicit state. -/
structure Block where
  addr : Nat
  data : List Nat
  size : Nat
  status : Nat
deriving DecidableEq, Repr

instance : Inhabited Block := ⟨⟨0, [], 0, STATUS_UNKNOWN⟩⟩

/-! ### Block construction (`Block.__init__`)

`array.array('L', data)` succeeds directly when `data` is a packed byte
buffer whose length is a multiple of the word width, or when `data` is a
sequence of integers each fitting in one machine word.  On failure the
constructor falls back to `array.array('L', bytes(data))`: element-wise
conversion to a packed byte sequence (each element must be a byte),
then the same buffer reinterpretation. -/

/-- Raw content handed to the constructor: either a packed byte buffer
(heap/stack/static captures) or a list of discrete integer values
(register captures). -/
inductive BlockData where
  | bytes (bs : List Nat)
  | ints (vs : List Nat)
deriving DecidableEq

/-- Little-endian value of a byte list (one machine word). -/
def leVal : List Nat → Nat
  | [] => 0
  | b :: bs => b + 256 * leVal bs

/-- Split a byte list into words of width `w`, little-endian; the fuel is
an upper bound on the number of chunks (the byte length suffices). -/
def toWordsAux (w : Nat) : Nat → List Nat → List Nat
  | 0, _ => []
  | k + 1, bs => if bs = [] then [] else leVal (bs.take w) :: toWordsAux w k (bs.drop w)

/-- Reinterpret a packed byte list as consecutive machine words of width `w`. -/
def toWords (w : Nat) (bs : List Nat) : List Nat := toWordsAux w bs.length bs

/-- First conversion path, `array.array('L', data)`: a byte buffer is
reinterpreted when its length is a multiple of the word width; an integer
sequence is taken element-wise when every element fits in one word. -/
def reinterpretDirect (w : Nat) : BlockData → Option (List Nat)
  | .bytes bs => if bs.length % w = 0 then some (toWords w bs) else none
  | .ints vs => if vs.all (fun v => v < 2 ^ (8 * w)) then some vs else none

/-- `bytes(data)`: identity on a byte buffer; element-wise conversion of an
integer sequence, defined only when every element is a byte. -/
def toBytes : BlockData → Option (List Nat)
  | .bytes bs => some bs
  | .ints vs => if vs.all (fun v => v < 256) then some vs else none

/-- Fallback path, `array.array('L', bytes(data))`. -/
def reinterpretViaBytes (w : Nat) (d : BlockData) : Option (List Nat) :=
  match toBytes d with
  | none => none
  | some bs => if bs.length % w = 0 then some (toWords w bs) else none

/-- `Block.__init__`: try the direct reinterpretation, fall back to the
element-wise byte conversion, fail (`InvalidBlockData`) when both are
impossible.  `size` is the word count times the word width. -/
def mkBlock (w addr : Nat) (d : BlockData) (status : Nat) : Option Block :=
  match reinterpretDirect w d with
  | some ws => some ⟨addr, ws, ws.length * w, status⟩
  | none =>
    match reinterpretViaBytes w d with
    | some ws => some ⟨addr, ws, ws.length * w, status⟩
    | none => none

/-! ### Status resolution (`Block.get_status`) -/

/-- Functional update of the status state at one block index. -/
def setSt (st : Nat → Nat) (i v : Nat) : Nat → Nat :=
  fun j => if j = i then v else st j

/-- Resolve each block of a reference list in order, threading the status
state (the sequential evaluation of the generator inside
`max(s.get_status(lookup) for s in self.references)`). -/
def resolveRefs (f : (Nat → Nat) → Nat → Option (Nat × (Nat → Nat))) :
    (Nat → Nat) → List Nat → Option (List Nat × (Nat → Nat))
  | st, [] => some ([], st)
  | st, j :: js =>
    match f st j with
    | none => none
    | some (s, st1) =>
      match resolveRefs f st1 js with
      | none => none
      | some (ss, st2) => some (s :: ss, st2)

/-- `Block.get_status(lookup)` with fuel.  `refs i` is the (index) list
`self.references` of block `i`; `lookup = none` is Python's `lookup=None`.
Returns the status and the updated state, or `none` when the recursion
does not complete within the fuel. -/
def getStatusF (refs : Nat → List Nat) : Nat → (Nat → Nat) → Nat → Option Nat →
    Option (Nat × (Nat → Nat))
  | 0, _, _, _ => none
  | fuel + 1, st, i, lookup =>
    if st i ≠ STATUS_UNKNOWN ∨ lookup = some i then
      some (st i, st)
    else
      match refs i with
      | [] => some (STATUS_DIRECTLY_LOST, setSt st i STATUS_DIRECTLY_LOST)
      | r :: rs =>
        match resolveRefs (fun s j => getStatusF refs fuel s j (some (lookup.getD i))) st (r :: rs) with
        | none => none
        | some (ss, st1) =>
          if ss.foldl max 0 = STATUS_UNKNOWN then
            some (STATUS_UNKNOWN, setSt st1 i STATUS_UNKNOWN)
          else
            some (ss.foldl max 0 - 1, setSt st1 i (ss.foldl max 0 - 1))

/-- One pass of top-level `b.get_status()` queries (a list comprehension in
`CoreLeak.analyze`), in order, threading the state; returns the statuses
in query order. -/
def queryList (refs : Nat → List Nat) (fuel : Nat) :
    (Nat → Nat) → List Nat → Option (List Nat × (Nat → Nat))
  | st, [] => some ([], st)
  | st, i :: is =>
    match getStatusF refs fuel st i none with
    | none => none
    | some (v, st1) =>
      match queryList refs fuel st1 is with
      | none => none
      | some (vs, st2) => some (v :: vs, st2)

/-- The "still reachable" comprehension: per block,
`b.get_status() == STATUS_INDIRECTLY_REACHABLE or
b.get_status() == STATUS_DIRECTLY_REACHABLE` — the second query happens
only when the first comparison is false (short-circuit `or`). -/
def queryReach (refs : Nat → List Nat) (fuel : Nat) :
    (Nat → Nat) → List Nat → Option (List Bool × (Nat → Nat))
  | st, [] => some ([], st)
  | st, i :: is =>
    match getStatusF refs fuel st i none with
    | none => none
    | some (v, st1) =>
      if v = STATUS_INDIRECTLY_REACHABLE then
        match queryReach refs fuel st1 is with
        | none => none
        | some (bs, st2) => some (true :: bs, st2)
      else
        match getStatusF refs fuel st1 i none with
        | none => none
        | some (v2, st2) =>
          match queryReach refs fuel st2 is with
          | none => none
          | some (bs, st3) => some ((v2 == STATUS_DIRECTLY_REACHABLE) :: bs, st3)

/-! ### Graph construction and the analysis session (`CoreLeak.analyze`) -/

/-- Block of a session by index (Python list indexing; blocks are
identified by position since each `Block(...)` is a distinct object). -/
def blockAt (blocks : List Block) (i : Nat) : Block := blocks.getD i default

/-- `block.references = [b for b in self.blocks if block.addr in b.data]`:
the indices, in list order, of the blocks whose word view contains block
`i`'s address. -/
def computeRefs (blocks : List Block) (i : Nat) : List Nat :=
  (List.range blocks.length).filter (fun j => (blockAt blocks j).data.contains (blockAt blocks i).addr)

/-- Initial status state of a session (statuses supplied at construction). -/
def initSt (blocks : List Block) (i : Nat) : Nat := (blockAt blocks i).status

/-- Byte size of a session block by index. -/
def sizesOf (blocks : List Block) (i : Nat) : Nat := (blockAt blocks i).size

/-- The six status-querying passes `CoreLeak.analyze` makes over the block
list, in source order: heap summary (line 78), the two size-bucketed lost
sections (lines 85 and 101), and the three leak-summary lines
(lines 119, 123, 127). -/
structure Trace where
  ss1 : List Nat
  ss2 : List Nat
  ss3 : List Nat
  ss4 : List Nat
  ss5 : List Nat
  bs6 : List Bool
deriving DecidableEq, Repr

/-- Run the six passes of `CoreLeak.analyze`, threading the mutable block
statuses through every `get_status` call in source order. -/
def analyzeTrace (blocks : List Block) (fuel : Nat) : Option Trace :=
  let refs := computeRefs blocks
  let qs := List.range blocks.length
  match queryList refs fuel (initSt blocks) qs with
  | none => none
  | some (ss1, st1) =>
    match queryList refs fuel st1 qs with
    | none => none
    | some (ss2, st2) =>
      match queryList refs fuel st2 qs with
      | none => none
      | some (ss3, st3) =>
        match queryList refs fuel st3 qs with
        | none => none
        | some (ss4, st4) =>
          match queryList refs fuel st4 qs with
          | none => none
          | some (ss5, st5) =>
            match queryReach refs fuel st5 qs with
            | none => none
            | some (bs6, _) => some ⟨ss1, ss2, ss3, ss4, ss5, bs6⟩

/-- The numbers printed by `CoreLeak.analyze`: the heap summary
("in use at exit"), and the three leak-summary lines (definitely lost,
indirectly lost, still reachable), as byte and block counts. -/
structure Summary where
  heapBytes : Nat
  heapBlocks : Nat
  dBytes : Nat
  dBlocks : Nat
  iBytes : Nat
  iBlocks : Nat
  rBytes : Nat
  rBlocks : Nat
deriving DecidableEq, Repr

/-- Weighted total over the blocks whose status in pass output `vs`
satisfies `p` (weight `w k` for block index `k`). -/
def bucketW (w : Nat → Nat) (vs : List Nat) (p : Nat → Bool) : Nat :=
  Finset.sum (Finset.range vs.length) (fun k => if p (vs.getD k 0) then w k else 0)

/-- Weighted total over the blocks marked `true` in the reachable pass. -/
def bucketWB (w : Nat → Nat) (bs : List Bool) : Nat :=
  Finset.sum (Finset.range bs.length) (fun k => if bs.getD k false then w k else 0)

/-- Aggregate a trace into the printed summary numbers, exactly as the
source filters do: heap = status ≠ Root over pass 1, definitely lost =
status = DirectlyLost over pass 4, indirectly lost = status =
IndirectlyLost over pass 5, still reachable = the pass-6 booleans. -/
def summaryOf (blocks : List Block) (t : Trace) : Summary :=
  ⟨bucketW (sizesOf blocks) t.ss1 (fun v => !(v == STATUS_ROOT)),
   bucketW (fun _ => 1) t.ss1 (fun v => !(v == STATUS_ROOT)),
   bucketW (sizesOf blocks) t.ss4 (fun v => v == STATUS_DIRECTLY_LOST),
   bucketW (fun _ => 1) t.ss4 (fun v => v == STATUS_DIRECTLY_LOST),
   bucketW (sizesOf blocks) t.ss5 (fun v => v == STATUS_INDIRECTLY_LOST),
   bucketW (fun _ => 1) t.ss5 (fun v => v == STATUS_INDIRECTLY_LOST),
   bucketWB (sizesOf blocks) t.bs6,
   bucketWB (fun _ => 1) t.bs6⟩

/-- `CoreLeak.analyze` as a function from a session to its printed numbers. -/
def analyzeSummary (blocks : List Block) (fuel : Nat) : Option Summary :=
  (analyzeTrace blocks fuel).map (summaryOf blocks)

/-! ### Pure status semantics on acyclic reference graphs -/

/-- Pure (state-free) status value of a block, by fuel: the value
`get_status` computes when memoization never interferes.  Mirrors the
recursion of `get_status`: supplied non-Unknown statuses are kept, a block
nobody references is directly lost, otherwise one ordinal below the
maximum over the referencing blocks (Unknown when that maximum is
Unknown). -/
def pureStatus (init : Nat → Nat) (refs : Nat → List Nat) : Nat → Nat → Nat
  | 0, _ => 0
  | fuel + 1, i =>
    if init i ≠ STATUS_UNKNOWN then init i
    else
      match refs i with
      | [] => STATUS_DIRECTLY_LOST
      | r :: rs =>
        if ((r :: rs).map (fun j => pureStatus init refs fuel j)).foldl max 0 = STATUS_UNKNOWN then
          STATUS_UNKNOWN
        else
          ((r :: rs).map (fun j => pureStatus init refs fuel j)).foldl max 0 - 1

/-- The pure status of a block in a graph with rank function `rank`
(each referencing block has smaller rank): fuel `rank i + 1` suffices. -/
def specStatus (init : Nat → Nat) (refs : Nat → List Nat) (rank : Nat → Nat) (i : Nat) : Nat :=
  pureStatus init refs (rank i + 1) i

/-- Divergence of a top-level `get_status()` call: no amount of fuel
completes the recursion (Python raises `RecursionError`). -/
def getStatusDiverges (refs : Nat → List Nat) (st : Nat → Nat) (i : Nat) : Prop :=
  ∀ fuel, getStatusF refs fuel st i none = none

/-- `reachesWithin refs k i j`: block `j` is reachable from block `i` in
at least one and at most `k` steps of the `references` relation. -/
def reachesWithin (refs : Nat → List Nat) : Nat → Nat → Nat → Bool
  | 0, _, _ => false
  | k + 1, i, j => (refs i).any (fun r => r == j || reachesWithin refs k r j)

/-! ### Concrete sessions -/

/-- The six-block end-to-end scenario (word width 4): root R, blocks A..E. -/
def c1blocks : List Block :=
  [⟨0x10000000, [0x20000000, 0x40000000], 8, STATUS_ROOT⟩,
   ⟨0x20000000, [0x30000000], 4, STATUS_UNKNOWN⟩,
   ⟨0x30000000, [0], 4, STATUS_UNKNOWN⟩,
   ⟨0x40000000, [0], 4, STATUS_UNKNOWN⟩,
   ⟨0x50000000, [0x60000000], 4, STATUS_UNKNOWN⟩,
   ⟨0x60000000, [0], 4, STATUS_UNKNOWN⟩]

/-- Expected trace of the end-to-end scenario: statuses
[Root, DirectlyReachable, IndirectlyReachable, DirectlyReachable,
DirectlyLost, IndirectlyLost], stable across all six passes. -/
def c1trace : Trace :=
  ⟨[5, 4, 3, 4, 2, 1], [5, 4, 3, 4, 2, 1], [5, 4, 3, 4, 2, 1],
   [5, 4, 3, 4, 2, 1], [5, 4, 3, 4, 2, 1],
   [false, true, true, true, false, false]⟩

/-- An acyclic chain of lost blocks: D (head, nothing references it),
E referenced by D, F referenced by E, G referenced by F. -/
def chainBlocks : List Block :=
  [⟨0x10, [0x20], 4, STATUS_UNKNOWN⟩,
   ⟨0x20, [0x30], 4, STATUS_UNKNOWN⟩,
   ⟨0x30, [0x40], 4, STATUS_UNKNOWN⟩,
   ⟨0x40, [0], 4, STATUS_UNKNOWN⟩]

/-- Trace of the chain session: D directly lost, E indirectly lost, F and
G stuck at Unknown (the ordinal decrement bottoms out), never counted in
any leak bucket. -/
def chainTrace : Trace :=
  ⟨[2, 1, 0, 0], [2, 1, 0, 0], [2, 1, 0, 0], [2, 1, 0, 0], [2, 1, 0, 0],
   [false, false, false, false]⟩

/-- A session with a two-block reference cycle (X and W reference each
other) hanging off block B: resolving B recurses through X and W, and the
in-flight marker (which only guards the first-queried block, B) never
fires. -/
def cycBlocks : List Block :=
  [⟨0x10, [0], 4, STATUS_UNKNOWN⟩,
   ⟨0x20, [0x10, 0x30], 8, STATUS_UNKNOWN⟩,
   ⟨0x30, [0x20], 4, STATUS_UNKNOWN⟩]

/-- Order-dependence session: root R references L, L and X reference each
other, D references X (so X is referenced by L-cycle partner L and by D,
L is referenced by R and X). -/
def c5blocks : List Block :=
  [⟨0x100, [0x200], 4, STATUS_ROOT⟩,
   ⟨0x200, [0x300], 4, STATUS_UNKNOWN⟩,
   ⟨0x300, [0x200], 4, STATUS_UNKNOWN⟩,
   ⟨0x400, [0x300], 4, STATUS_UNKNOWN⟩]

/-- A session holding a single root block that nothing references. -/
def rootOnly : List Block := [⟨0x10, [], 0, STATUS_ROOT⟩]

/-- Tiny fixed graphs and states used to instantiate general theorems. -/
def noRefs : Nat → List Nat := fun _ => []

/-- All-Unknown status state. -/
def zeroSt : Nat → Nat := fun _ => 0

/-- State with block 1 a root and everything else Unknown. -/
def oneRootSt : Nat → Nat := fun j => if j = 1 then STATUS_ROOT else 0

/-- Chain graph 0 ← 1 ← 2 (block 0 referenced by 1, block 1 referenced
by 2, block 2 referenced by nothing). -/
def chainRefs : Nat → List Nat :=
  fun i => if i = 0 then [1] else if i = 1 then [2] else []

/-! ## Basic solver lemmas -/

theorem setSt_self (st : Nat → Nat) (i v : Nat) : setSt st i v i = v := by
  simp [setSt]

theorem setSt_ne (st : Nat → Nat) (i v j : Nat) (h : j ≠ i) : setSt st i v j = st j := by
  simp [setSt, h]

/-- A block whose status is already non-Unknown is returned unchanged
(memoization fast path). -/
theorem getStatus_frozen {refs : Nat → List Nat} {fuel : Nat} {st : Nat → Nat} {i : Nat}
    {lk : Option Nat} {v : Nat} {st' : Nat → Nat}
    (h : getStatusF refs fuel st i lk = some (v, st')) (hi : st i ≠ STATUS_UNKNOWN) :
    v = st i ∧ st' = st := by
  cases fuel with
  | zero => simp [getStatusF] at h
  | succ f =>
    rw [getStatusF, if_pos (Or.inl hi)] at h
    simp only [Option.some.injEq, Prod.mk.injEq] at h
    exact ⟨h.1.symm, h.2.symm⟩

/-- A completed top-level query (`lookup=None`) leaves the queried block's
status equal to the returned value. -/
theorem getStatus_post {refs : Nat → List Nat} {fuel : Nat} {st : Nat → Nat} {i : Nat}
    {v : Nat} {st' : Nat → Nat}
    (h : getStatusF refs fuel st i none = some (v, st')) : st' i = v := by
  cases fuel with
  | zero => simp [getStatusF] at h
  | succ f =>
    rw [getStatusF] at h
    split at h
    · simp only [Option.some.injEq, Prod.mk.injEq] at h
      rw [← h.2, h.1]
    · split at h
      · simp only [Option.some.injEq, Prod.mk.injEq] at h
        rw [← h.2, ← h.1, setSt_self]
      · split at h
        · exact absurd h (by simp)
        · split at h
          · simp only [Option.some.injEq, Prod.mk.injEq] at h
            rw [← h.2, ← h.1, setSt_self]
          · simp only [Option.some.injEq, Prod.mk.injEq] at h
            rw [← h.2, ← h.1, setSt_self]

/-- Threading a reference list preserves every non-Unknown status, as long
as the per-block resolver does. -/
theorem resolveRefs_preserve {f : (Nat → Nat) → Nat → Option (Nat × (Nat → Nat))}
    (hf : ∀ s j p, f s j = some p → ∀ k, s k ≠ STATUS_UNKNOWN → p.2 k = s k) :
    ∀ (l : List Nat) (st : Nat → Nat) (ss : List Nat) (st' : Nat → Nat),
      resolveRefs f st l = some (ss, st') →
      ∀ k, st k ≠ STATUS_UNKNOWN → st' k = st k := by
  intro l
  induction l with
  | nil =>
    intro st ss st' h k hk
    simp only [resolveRefs, Option.some.injEq, Prod.mk.injEq] at h
    rw [← h.2]
  | cons j js ih =>
    intro st ss st' h k hk
    rw [resolveRefs] at h
    split at h
    · exact Option.noConfusion h
    · rename_i s st1 h1
      split at h
      · exact Option.noConfusion h
      · rename_i ss2 st2 h2
        simp only [Option.some.injEq, Prod.mk.injEq] at h
        have e1 : st1 k = st k := hf st j _ h1 k hk
        have e2 : st2 k = st1 k := ih st1 _ _ h2 k (by rw [e1]; exact hk)
        rw [← h.2, e2, e1]

/-- `get_status` never changes a status that is already non-Unknown
(memoized statuses are permanent). -/
theorem getStatus_preserve {refs : Nat → List Nat} :
    ∀ (fuel : Nat) (st : Nat → Nat) (i : Nat) (lk : Option Nat) (v : Nat) (st' : Nat → Nat),
      getStatusF refs fuel st i lk = some (v, st') →
      ∀ k, st k ≠ STATUS_UNKNOWN → st' k = st k := by
  intro fuel
  induction fuel with
  | zero => intro st i lk v st' h; simp [getStatusF] at h
  | succ f ih =>
    intro st i lk v st' h k hk
    rw [getStatusF] at h
    split at h
    · simp only [Option.some.injEq, Prod.mk.injEq] at h
      rw [← h.2]
    · rename_i hcond
      have hi0 : st i = STATUS_UNKNOWN := by
        by_contra hne
        exact hcond (Or.inl hne)
      have hki : k ≠ i := fun he => hk (he ▸ hi0)
      split at h
      · simp only [Option.some.injEq, Prod.mk.injEq] at h
        rw [← h.2, setSt_ne _ _ _ _ hki]
      · rename_i r rs hrefs
        split at h
        · exact Option.noConfusion h
        · rename_i ss st1 hrr
          have hpre : st1 k = st k :=
            resolveRefs_preserve (fun s j p hp k2 hk2 => ih s j _ p.1 p.2 hp k2 hk2)
              (r :: rs) st ss st1 hrr k hk
          split at h
          · simp only [Option.some.injEq, Prod.mk.injEq] at h
            rw [← h.2, setSt_ne _ _ _ _ hki, hpre]
          · simp only [Option.some.injEq, Prod.mk.injEq] at h
            rw [← h.2, setSt_ne _ _ _ _ hki, hpre]

/-- A pass of top-level queries never changes a non-Unknown status. -/
theorem queryList_preserve {refs : Nat → List Nat} {fuel : Nat} :
    ∀ (qs : List Nat) (st : Nat → Nat) (vs : List Nat) (st' : Nat → Nat),
      queryList refs fuel st qs = some (vs, st') →
      ∀ k, st k ≠ STATUS_UNKNOWN → st' k = st k := by
  intro qs
  induction qs with
  | nil =>
    intro st vs st' h k hk
    simp only [queryList, Option.some.injEq, Prod.mk.injEq] at h
    rw [← h.2]
  | cons i is ih =>
    intro st vs st' h k hk
    rw [queryList] at h
    split at h
    · exact Option.noConfusion h
    · rename_i v st1 h1
      split at h
      · exact Option.noConfusion h
      · rename_i vs2 st2 h2
        simp only [Option.some.injEq, Prod.mk.injEq] at h
        have e1 : st1 k = st k := getStatus_preserve fuel st i none v st1 h1 k hk
        have e2 : st2 k = st1 k := ih st1 _ _ h2 k (by rw [e1]; exact hk)
        rw [← h.2, e2, e1]

/-- The reachable pass never changes a non-Unknown status. -/
theorem queryReach_preserve {refs : Nat → List Nat} {fuel : Nat} :
    ∀ (qs : List Nat) (st : Nat → Nat) (bs : List Bool) (st' : Nat → Nat),
      queryReach refs fuel st qs = some (bs, st') →
      ∀ k, st k ≠ STATUS_UNKNOWN → st' k = st k := by
  intro qs
  induction qs with
  | nil =>
    intro st bs st' h k hk
    simp only [queryReach, Option.some.injEq, Prod.mk.injEq] at h
    rw [← h.2]
  | cons i is ih =>
    intro st bs st' h k hk
    rw [queryReach] at h
    split at h
    · exact Option.noConfusion h
    · rename_i v st1 h1
      have e1 : st1 k = st k := getStatus_preserve fuel st i none v st1 h1 k hk
      split at h
      · split at h
        · exact Option.noConfusion h
        · rename_i bs2 st2 h2
          simp only [Option.some.injEq, Prod.mk.injEq] at h
          have e2 : st2 k = st1 k := ih st1 _ _ h2 k (by rw [e1]; exact hk)
          rw [← h.2, e2, e1]
      · split at h
        · exact Option.noConfusion h
        · rename_i v2 st2 h2
          have e2 : st2 k = st1 k :=
            getStatus_preserve fuel st1 i none v2 st2 h2 k (by rw [e1]; exact hk)
          split at h
          · exact Option.noConfusion h
          · rename_i bs3 st3 h3
            simp only [Option.some.injEq, Prod.mk.injEq] at h
            have e3 : st3 k = st2 k := ih st2 _ _ h3 k (by rw [e2, e1]; exact hk)
            rw [← h.2, e3, e2, e1]

/-- A completed pass returns one status per queried block. -/
theorem queryList_length {refs : Nat → List Nat} {fuel : Nat} :
    ∀ (qs : List Nat) (st : Nat → Nat) (vs : List Nat) (st' : Nat → Nat),
      queryList refs fuel st qs = some (vs, st') → vs.length = qs.length := by
  intro qs
  induction qs with
  | nil =>
    intro st vs st' h
    simp only [queryList, Option.some.injEq, Prod.mk.injEq] at h
    rw [← h.1]
  | cons i is ih =>
    intro st vs st' h
    rw [queryList] at h
    split at h
    · exact Option.noConfusion h
    · rename_i v st1 h1
      split at h
      · exact Option.noConfusion h
      · rename_i vs2 st2 h2
        simp only [Option.some.injEq, Prod.mk.injEq] at h
        rw [← h.1]
        simp [ih st1 _ _ h2]

/-- The reachable pass returns one boolean per queried block. -/
theorem queryReach_length {refs : Nat → List Nat} {fuel : Nat} :
    ∀ (qs : List Nat) (st : Nat → Nat) (bs : List Bool) (st' : Nat → Nat),
      queryReach refs fuel st qs = some (bs, st') → bs.length = qs.length := by
  intro qs
  induction qs with
  | nil =>
    intro st bs st' h
    simp only [queryReach, Option.some.injEq, Prod.mk.injEq] at h
    simp [← h.1]
  | cons i is ih =>
    intro st bs st' h
    rw [queryReach] at h
    split at h
    · exact Option.noConfusion h
    · rename_i v st1 h1
      split at h
      · split at h
        · exact Option.noConfusion h
        · rename_i bs2 st2 h2
          simp only [Option.some.injEq, Prod.mk.injEq] at h
          rw [← h.1]
          simp [ih st1 _ _ h2]
      · split at h
        · exact Option.noConfusion h
        · rename_i v2 st2 h2
          split at h
          · exact Option.noConfusion h
          · rename_i bs3 st3 h3
            simp only [Option.some.injEq, Prod.mk.injEq] at h
            rw [← h.1]
            simp [ih st2 _ _ h3]

/-- After a pass, every block whose query returned a non-Unknown status
holds that status in the final state of the pass. -/
theorem queryList_post {refs : Nat → List Nat} {fuel : Nat} :
    ∀ (qs : List Nat) (st : Nat → Nat) (vs : List Nat) (st' : Nat → Nat),
      queryList refs fuel st qs = some (vs, st') →
      ∀ k, k < qs.length → vs.getD k 0 ≠ STATUS_UNKNOWN →
        st' (qs.getD k 0) = vs.getD k 0 := by
  intro qs
  induction qs with
  | nil => intro st vs st' h k hk; exact absurd hk (by simp)
  | cons i is ih =>
    intro st vs st' h k hk hv
    rw [queryList] at h
    split at h
    · exact Option.noConfusion h
    · rename_i v st1 h1
      split at h
      · exact Option.noConfusion h
      · rename_i vs2 st2 h2
        simp only [Option.some.injEq, Prod.mk.injEq] at h
        obtain ⟨h3, h4⟩ := h
        subst h3
        subst h4
        cases k with
        | zero =>
          simp only [List.getD_cons_zero] at hv ⊢
          have e1 : st1 i = v := getStatus_post h1
          have e2 := queryList_preserve is st1 _ _ h2 i (by rw [e1]; exact hv)
          rw [e2, e1]
        | succ k =>
          simp only [List.getD_cons_succ] at hv ⊢
          exact ih st1 _ _ h2 k (by simpa using hk) hv

/-- A block already holding a non-Unknown status before a pass is reported
with exactly that status by the pass. -/
theorem queryList_stable {refs : Nat → List Nat} {fuel : Nat} :
    ∀ (qs : List Nat) (st : Nat → Nat) (vs : List Nat) (st' : Nat → Nat),
      queryList refs fuel st qs = some (vs, st') →
      ∀ k, k < qs.length → st (qs.getD k 0) ≠ STATUS_UNKNOWN →
        vs.getD k 0 = st (qs.getD k 0) := by
  intro qs
  induction qs with
  | nil => intro st vs st' h k hk; exact absurd hk (by simp)
  | cons i is ih =>
    intro st vs st' h k hk hv
    rw [queryList] at h
    split at h
    · exact Option.noConfusion h
    · rename_i v st1 h1
      split at h
      · exact Option.noConfusion h
      · rename_i vs2 st2 h2
        simp only [Option.some.injEq, Prod.mk.injEq] at h
        obtain ⟨h3, h4⟩ := h
        subst h3
        subst h4
        cases k with
        | zero =>
          simp only [List.getD_cons_zero] at hv ⊢
          exact (getStatus_frozen h1 hv).1
        | succ k =>
          simp only [List.getD_cons_succ] at hv ⊢
          have e1 : st1 (is.getD k 0) = st (is.getD k 0) :=
            getStatus_preserve fuel st i none v st1 h1 _ hv
          rw [← e1] at hv ⊢
          exact ih st1 _ _ h2 k (by simpa using hk) hv

/-- A block already holding a non-Unknown status before the reachable pass
is marked reachable exactly when that status is `IndirectlyReachable` or
`DirectlyReachable`. -/
theorem queryReach_stable {refs : Nat → List Nat} {fuel : Nat} :
    ∀ (qs : List Nat) (st : Nat → Nat) (bs : List Bool) (st' : Nat → Nat),
      queryReach refs fuel st qs = some (bs, st') →
      ∀ k, k < qs.length → st (qs.getD k 0) ≠ STATUS_UNKNOWN →
        bs.getD k false = (st (qs.getD k 0) == STATUS_INDIRECTLY_REACHABLE
          || st (qs.getD k 0) == STATUS_DIRECTLY_REACHABLE) := by
  intro qs
  induction qs with
  | nil => intro st bs st' h k hk; exact absurd hk (by simp)
  | cons i is ih =>
    intro st bs st' h k hk hv
    rw [queryReach] at h
    split at h
    · exact Option.noConfusion h
    · rename_i v st1 h1
      split at h
      · rename_i hv3
        split at h
        · exact Option.noConfusion h
        · rename_i bs2 st2 h2
          simp only [Option.some.injEq, Prod.mk.injEq] at h
          obtain ⟨h3, h4⟩ := h
          subst h3
          subst h4
          cases k with
          | zero =>
            simp only [List.getD_cons_zero] at hv ⊢
            obtain ⟨e1, e2⟩ := getStatus_frozen h1 hv
            rw [← e1, hv3]
            simp
          | succ k =>
            simp only [List.getD_cons_succ] at hv ⊢
            have e1 : st1 (is.getD k 0) = st (is.getD k 0) :=
              getStatus_preserve fuel st i none v st1 h1 _ hv
            rw [← e1] at hv ⊢
            exact ih st1 _ _ h2 k (by simpa using hk) hv
      · rename_i hv3
        split at h
        · exact Option.noConfusion h
        · rename_i v2 st2 h2
          split at h
          · exact Option.noConfusion h
          · rename_i bs3 st3 h3
            simp only [Option.some.injEq, Prod.mk.injEq] at h
            obtain ⟨h4, h5⟩ := h
            subst h4
            subst h5
            cases k with
            | zero =>
              simp only [List.getD_cons_zero] at hv ⊢
              obtain ⟨e1, e2⟩ := getStatus_frozen h1 hv
              obtain ⟨e3, e4⟩ := getStatus_frozen h2 (by rw [e2]; exact hv)
              have hst3 : (st i == STATUS_INDIRECTLY_REACHABLE) = false := by
                simp only [beq_eq_false_iff_ne, ne_eq]
                intro he
                exact hv3 (by rw [e1, he])
              rw [hst3, Bool.false_or, e3, e2]
            | succ k =>
              simp only [List.getD_cons_succ] at hv ⊢
              have e1 : st1 (is.getD k 0) = st (is.getD k 0) :=
                getStatus_preserve fuel st i none v st1 h1 _ hv
              have e2 : st2 (is.getD k 0) = st1 (is.getD k 0) :=
                getStatus_preserve fuel st1 i none v2 st2 h2 _ (by rw [e1]; exact hv)
              rw [← e1, ← e2] at hv ⊢
              exact ih st2 _ _ h3 k (by simpa using hk) hv

/-- Folding `max` over a bounded list stays bounded. -/
theorem foldlMax_le {B : Nat} :
    ∀ (l : List Nat), (∀ x ∈ l, x ≤ B) → ∀ a, a ≤ B → l.foldl max a ≤ B := by
  intro l
  induction l with
  | nil => intro _ a ha; simpa using ha
  | cons x xs ih =>
    intro hB a ha
    rw [List.foldl_cons]
    exact ih (fun y hy => hB y (List.mem_cons_of_mem _ hy)) _
      (max_le ha (hB x (List.mem_cons_self _ _)))

theorem setSt_le {st : Nat → Nat} {B i v : Nat} (hst : ∀ k, st k ≤ B) (hv : v ≤ B) :
    ∀ k, setSt st i v k ≤ B := by
  intro k
  rw [setSt]
  split
  · exact hv
  · exact hst k

/-- Threading a reference list keeps everything bounded by `Root`, as long
as the per-block resolver does. -/
theorem resolveRefs_le {f : (Nat → Nat) → Nat → Option (Nat × (Nat → Nat))}
    (hf : ∀ s j p, f s j = some p → (∀ k, s k ≤ STATUS_ROOT) →
      p.1 ≤ STATUS_ROOT ∧ ∀ k, p.2 k ≤ STATUS_ROOT) :
    ∀ (l : List Nat) (st : Nat → Nat) (ss : List Nat) (st' : Nat → Nat),
      resolveRefs f st l = some (ss, st') → (∀ k, st k ≤ STATUS_ROOT) →
      (∀ x ∈ ss, x ≤ STATUS_ROOT) ∧ ∀ k, st' k ≤ STATUS_ROOT := by
  intro l
  induction l with
  | nil =>
    intro st ss st' h hst
    simp only [resolveRefs, Option.some.injEq, Prod.mk.injEq] at h
    refine ⟨?_, ?_⟩
    · rw [← h.1]; simp
    · rw [← h.2]; exact hst
  | cons j js ih =>
    intro st ss st' h hst
    rw [resolveRefs] at h
    split at h
    · exact Option.noConfusion h
    · rename_i s st1 h1
      split at h
      · exact Option.noConfusion h
      · rename_i ss2 st2 h2
        simp only [Option.some.injEq, Prod.mk.injEq] at h
        obtain ⟨hs1, hst1⟩ := hf st j _ h1 hst
        obtain ⟨hss2, hst2⟩ := ih st1 _ _ h2 hst1
        refine ⟨?_, ?_⟩
        · rw [← h.1]
          intro x hx
          rcases List.mem_cons.mp hx with rfl | hx
          · exact hs1
          · exact hss2 x hx
        · rw [← h.2]; exact hst2

/-- Statuses computed by `get_status` never exceed `Root` when all current
statuses are at most `Root`. -/
theorem getStatus_le {refs : Nat → List Nat} :
    ∀ (fuel : Nat) (st : Nat → Nat) (i : Nat) (lk : Option Nat) (v : Nat) (st' : Nat → Nat),
      getStatusF refs fuel st i lk = some (v, st') → (∀ k, st k ≤ STATUS_ROOT) →
      v ≤ STATUS_ROOT ∧ ∀ k, st' k ≤ STATUS_ROOT := by
  intro fuel
  induction fuel with
  | zero => intro st i lk v st' h; simp [getStatusF] at h
  | succ f ih =>
    intro st i lk v st' h hst
    rw [getStatusF] at h
    split at h
    · simp only [Option.some.injEq, Prod.mk.injEq] at h
      exact ⟨h.1 ▸ hst i, h.2 ▸ hst⟩
    · split at h
      · simp only [Option.some.injEq, Prod.mk.injEq] at h
        refine ⟨h.1 ▸ (by decide), h.2 ▸ setSt_le hst (by decide)⟩
      · rename_i r rs hrefs
        split at h
        · exact Option.noConfusion h
        · rename_i ss st1 hrr
          obtain ⟨hss, hst1⟩ :=
            resolveRefs_le (fun s j p hp hs => ih s j _ p.1 p.2 hp hs) (r :: rs) st ss st1 hrr hst
          have hbest : ss.foldl max 0 ≤ STATUS_ROOT := foldlMax_le ss hss 0 (by decide)
          split at h
          · simp only [Option.some.injEq, Prod.mk.injEq] at h
            exact ⟨h.1 ▸ (by decide), h.2 ▸ setSt_le hst1 (by decide)⟩
          · simp only [Option.some.injEq, Prod.mk.injEq] at h
            have hb1 : ss.foldl max 0 - 1 ≤ STATUS_ROOT := le_trans (Nat.sub_le _ _) hbest
            exact ⟨h.1 ▸ hb1, h.2 ▸ setSt_le hst1 hb1⟩

/-- A pass of top-level queries keeps every status at most `Root`. -/
theorem queryList_le {refs : Nat → List Nat} {fuel : Nat} :
    ∀ (qs : List Nat) (st : Nat → Nat) (vs : List Nat) (st' : Nat → Nat),
      queryList refs fuel st qs = some (vs, st') → (∀ k, st k ≤ STATUS_ROOT) →
      (∀ x ∈ vs, x ≤ STATUS_ROOT) ∧ ∀ k, st' k ≤ STATUS_ROOT := by
  intro qs
  induction qs with
  | nil =>
    intro st vs st' h hst
    simp only [queryList, Option.some.injEq, Prod.mk.injEq] at h
    refine ⟨?_, h.2 ▸ hst⟩
    rw [← h.1]
    simp
  | cons i is ih =>
    intro st vs st' h hst
    rw [queryList] at h
    split at h
    · exact Option.noConfusion h
    · rename_i v st1 h1
      split at h
      · exact Option.noConfusion h
      · rename_i vs2 st2 h2
        simp only [Option.some.injEq, Prod.mk.injEq] at h
        obtain ⟨hv, hst1⟩ := getStatus_le fuel st i none v st1 h1 hst
        obtain ⟨hvs2, hst2⟩ := ih st1 _ _ h2 hst1
        refine ⟨?_, h.2 ▸ hst2⟩
        rw [← h.1]
        intro x hx
        rcases List.mem_cons.mp hx with rfl | hx
        · exact hv
        · exact hvs2 x hx

/-- Unfold a successful `analyzeTrace` run into its six passes. -/
theorem analyzeTrace_eq {blocks : List Block} {fuel : Nat} {t : Trace}
    (h : analyzeTrace blocks fuel = some t) :
    ∃ st1 st2 st3 st4 st5 st6,
      queryList (computeRefs blocks) fuel (initSt blocks) (List.range blocks.length) = some (t.ss1, st1) ∧
      queryList (computeRefs blocks) fuel st1 (List.range blocks.length) = some (t.ss2, st2) ∧
      queryList (computeRefs blocks) fuel st2 (List.range blocks.length) = some (t.ss3, st3) ∧
      queryList (computeRefs blocks) fuel st3 (List.range blocks.length) = some (t.ss4, st4) ∧
      queryList (computeRefs blocks) fuel st4 (List.range blocks.length) = some (t.ss5, st5) ∧
      queryReach (computeRefs blocks) fuel st5 (List.range blocks.length) = some (t.bs6, st6) := by
  rw [analyzeTrace] at h
  split at h
  · exact Option.noConfusion h
  · rename_i ss1 st1 h1
    split at h
    · exact Option.noConfusion h
    · rename_i ss2 st2 h2
      split at h
      · exact Option.noConfusion h
      · rename_i ss3 st3 h3
        split at h
        · exact Option.noConfusion h
        · rename_i ss4 st4 h4
          split at h
          · exact Option.noConfusion h
          · rename_i ss5 st5 h5
            split at h
            · exact Option.noConfusion h
            · rename_i st6p bs6 st6 h6
              simp only [Option.some.injEq] at h
              subst h
              exact ⟨st1, st2, st3, st4, st5, st6, h1, h2, h3, h4, h5, h6⟩

/-! ## Acyclic reference graphs: pure semantics -/

/-- On a ranked (acyclic) graph the fuel is irrelevant once it exceeds the
block's rank. -/
theorem pureStatus_congr (init : Nat → Nat) (refs : Nat → List Nat) (rank : Nat → Nat)
    (hrank : ∀ i j, j ∈ refs i → rank j < rank i) :
    ∀ (m f g i : Nat), rank i < f → rank i < g → rank i ≤ m →
      pureStatus init refs f i = pureStatus init refs g i := by
  intro m
  induction m with
  | zero =>
    intro f g i hf hg hm
    cases f with
    | zero => omega
    | succ f' =>
      cases g with
      | zero => omega
      | succ g' =>
        rw [pureStatus, pureStatus]
        split
        · rfl
        · rcases hr : refs i with _ | ⟨r, rs⟩
          · rfl
          · exact absurd (hrank i r (by rw [hr]; exact List.mem_cons_self _ _)) (by omega)
  | succ m ih =>
    intro f g i hf hg hm
    cases f with
    | zero => omega
    | succ f' =>
      cases g with
      | zero => omega
      | succ g' =>
        rw [pureStatus, pureStatus]
        split
        · rfl
        · rcases hr : refs i with _ | ⟨r, rs⟩
          · rfl
          · have hmap : (r :: rs).map (fun j => pureStatus init refs f' j)
                = (r :: rs).map (fun j => pureStatus init refs g' j) := by
              apply List.map_congr_left
              intro x hx
              have hxi : rank x < rank i := hrank i x (by rw [hr]; exact hx)
              exact ih f' g' x (by omega) (by omega) (by omega)
            dsimp only
            rw [hmap]

/-- A block created with a non-Unknown status keeps it. -/
theorem specStatus_root (init : Nat → Nat) (refs : Nat → List Nat) (rank : Nat → Nat)
    (i : Nat) (hi : init i ≠ STATUS_UNKNOWN) : specStatus init refs rank i = init i := by
  rw [specStatus, pureStatus, if_pos hi]

/-- An Unknown block that nothing references is directly lost. -/
theorem specStatus_leaf (init : Nat → Nat) (refs : Nat → List Nat) (rank : Nat → Nat)
    (i : Nat) (hi : init i = STATUS_UNKNOWN) (hr : refs i = []) :
    specStatus init refs rank i = STATUS_DIRECTLY_LOST := by
  rw [specStatus, pureStatus, if_neg (by simp [hi]), hr]

/-- An Unknown block with referencers gets one ordinal below its best
referencer (Unknown when the best is Unknown). -/
theorem specStatus_node (init : Nat → Nat) (refs : Nat → List Nat) (rank : Nat → Nat)
    (hrank : ∀ i j, j ∈ refs i → rank j < rank i)
    (i r : Nat) (rs : List Nat) (hi : init i = STATUS_UNKNOWN) (hr : refs i = r :: rs) :
    specStatus init refs rank i =
      if ((r :: rs).map (specStatus init refs rank)).foldl max 0 = STATUS_UNKNOWN then
        STATUS_UNKNOWN
      else ((r :: rs).map (specStatus init refs rank)).foldl max 0 - 1 := by
  rw [specStatus, pureStatus, if_neg (by simp [hi]), hr]
  have hmap : (r :: rs).map (fun j => pureStatus init refs (rank i) j)
      = (r :: rs).map (specStatus init refs rank) := by
    apply List.map_congr_left
    intro x hx
    have hxi : rank x < rank i := hrank i x (by rw [hr]; exact hx)
    exact pureStatus_congr init refs rank hrank (rank x) (rank i) (rank x + 1) x
      (by omega) (by omega) le_rfl
  dsimp only
  rw [hmap]

/-- Run invariant on ranked graphs: every block is either still Unknown
(and was created Unknown) or already holds its pure status. -/
def dagInv (init : Nat → Nat) (refs : Nat → List Nat) (rank : Nat → Nat) (st : Nat → Nat) : Prop :=
  ∀ j, (st j = STATUS_UNKNOWN ∧ init j = STATUS_UNKNOWN) ∨ st j = specStatus init refs rank j

theorem dagInv_init (init : Nat → Nat) (refs : Nat → List Nat) (rank : Nat → Nat) :
    dagInv init refs rank init := by
  intro j
  by_cases hj : init j = STATUS_UNKNOWN
  · exact Or.inl ⟨hj, hj⟩
  · exact Or.inr (specStatus_root init refs rank j hj).symm

/-- On a ranked (acyclic) reference graph, `get_status` terminates with any
fuel above the block's rank, computes exactly the pure status, and
preserves the run invariant. -/
theorem getStatus_dag (init : Nat → Nat) (refs : Nat → List Nat) (rank : Nat → Nat)
    (hrank : ∀ i j, j ∈ refs i → rank j < rank i) :
    ∀ (fuel i : Nat) (st : Nat → Nat) (lookup : Option Nat),
      dagInv init refs rank st → rank i < fuel →
      (∀ l, lookup = some l → rank i < rank l) →
      ∃ st', getStatusF refs fuel st i lookup = some (specStatus init refs rank i, st') ∧
        dagInv init refs rank st' ∧ st' i = specStatus init refs rank i ∧
        (∀ j, st j ≠ STATUS_UNKNOWN → st' j = st j) := by
  intro fuel
  induction fuel with
  | zero => intro i st lookup _ hf _; omega
  | succ f ih =>
    intro i st lookup hinv hf hlk
    by_cases hfast : st i ≠ STATUS_UNKNOWN ∨ lookup = some i
    · have hvi : st i = specStatus init refs rank i := by
        rcases hfast with hne | heq
        · rcases hinv i with ⟨h0, _⟩ | hS
          · exact absurd h0 hne
          · exact hS
        · exact absurd (hlk i heq) (lt_irrefl _)
      refine ⟨st, ?_, hinv, hvi, fun j _ => rfl⟩
      rw [getStatusF, if_pos hfast, hvi]
    · push_neg at hfast
      obtain ⟨hi0, hlknot⟩ := hfast
      have hinit0 : init i = STATUS_UNKNOWN := by
        rcases hinv i with ⟨_, h⟩ | hS
        · exact h
        · by_contra hne
          have hroot := specStatus_root init refs rank i hne
          rw [hS, hroot] at hi0
          exact hne hi0
      have hcond : ¬ (st i ≠ STATUS_UNKNOWN ∨ lookup = some i) := by
        simp [hi0, hlknot]
      -- resolve the reference list against lookup.getD i
      have hlist : ∀ (l : List Nat), (∀ j ∈ l, rank j < f ∧ rank j < rank (lookup.getD i)) →
          ∀ st0, dagInv init refs rank st0 →
          ∃ st', resolveRefs (fun s j => getStatusF refs f s j (some (lookup.getD i))) st0 l
              = some (l.map (specStatus init refs rank), st') ∧
            dagInv init refs rank st' ∧ (∀ j, st0 j ≠ STATUS_UNKNOWN → st' j = st0 j) := by
        intro l
        induction l with
        | nil => intro _ st0 hinv0; exact ⟨st0, rfl, hinv0, fun _ _ => rfl⟩
        | cons j js ihl =>
          intro hjs st0 hinv0
          obtain ⟨st1, hj1, hinv1, hsti1, hpres1⟩ := ih j st0 (some (lookup.getD i)) hinv0
            (hjs j (List.mem_cons_self _ _)).1
            (fun l' hl' => by
              injection hl' with he
              rw [← he]
              exact (hjs j (List.mem_cons_self _ _)).2)
          obtain ⟨st2, hjs2, hinv2, hpres2⟩ :=
            ihl (fun x hx => hjs x (List.mem_cons_of_mem _ hx)) st1 hinv1
          refine ⟨st2, ?_, hinv2, ?_⟩
          · simp only [resolveRefs, hj1, hjs2, List.map_cons]
          · intro k hk
            rw [hpres2 k (by rw [hpres1 k hk]; exact hk), hpres1 k hk]
      rcases hr : refs i with _ | ⟨r, rs⟩
      · have hspec : specStatus init refs rank i = STATUS_DIRECTLY_LOST :=
          specStatus_leaf init refs rank i hinit0 hr
        refine ⟨setSt st i STATUS_DIRECTLY_LOST, ?_, ?_, ?_, ?_⟩
        · rw [getStatusF, if_neg hcond, hr, hspec]
        · intro j
          by_cases hj : j = i
          · subst hj
            exact Or.inr (by rw [setSt_self, hspec])
          · rw [setSt_ne _ _ _ _ hj]
            exact hinv j
        · rw [setSt_self, hspec]
        · intro j hj
          have hji : j ≠ i := fun he => hj (he ▸ hi0)
          exact setSt_ne _ _ _ _ hji
      · have hranks : ∀ j ∈ r :: rs, rank j < f ∧ rank j < rank (lookup.getD i) := by
          intro j hj
          have hji : rank j < rank i := hrank i j (by rw [hr]; exact hj)
          constructor
          · omega
          · rcases hlkc : lookup with _ | l
            · simpa using hji
            · have := hlk l hlkc
              simp only [Option.getD_some]
              omega
        obtain ⟨st1, hres, hinv1, hpres1⟩ := hlist (r :: rs) hranks st hinv
        have hspec : specStatus init refs rank i =
            if ((r :: rs).map (specStatus init refs rank)).foldl max 0 = STATUS_UNKNOWN then
              STATUS_UNKNOWN
            else ((r :: rs).map (specStatus init refs rank)).foldl max 0 - 1 :=
          specStatus_node init refs rank hrank i r rs hinit0 hr
        refine ⟨setSt st1 i (specStatus init refs rank i), ?_, ?_, ?_, ?_⟩
        · rw [getStatusF, if_neg hcond, hr]
          dsimp only
          rw [hspec]
          simp only [hres]
          split
          · rfl
          · rfl
        · intro j
          by_cases hj : j = i
          · subst hj
            exact Or.inr (setSt_self _ _ _)
          · rw [setSt_ne _ _ _ _ hj]
            exact hinv1 j
        · exact setSt_self _ _ _
        · intro j hj
          have hji : j ≠ i := fun he => hj (he ▸ hi0)
          rw [setSt_ne _ _ _ _ hji]
          exact hpres1 j hj

/-- On a ranked reference graph a pass of queries terminates, resolves
every queried block to its pure status, and never loses a pure status. -/
theorem queryList_dag (init : Nat → Nat) (refs : Nat → List Nat) (rank : Nat → Nat)
    (hrank : ∀ i j, j ∈ refs i → rank j < rank i) :
    ∀ (qs : List Nat) (fuel : Nat) (st : Nat → Nat),
      dagInv init refs rank st → (∀ i ∈ qs, rank i < fuel) →
      ∃ vs st', queryList refs fuel st qs = some (vs, st') ∧
        dagInv init refs rank st' ∧
        (∀ j, st j = specStatus init refs rank j → st' j = specStatus init refs rank j) ∧
        (∀ j, j ∈ qs → st' j = specStatus init refs rank j) := by
  intro qs
  induction qs with
  | nil =>
    intro fuel st hinv _
    exact ⟨[], st, rfl, hinv, fun _ h => h, by simp⟩
  | cons i is ihq =>
    intro fuel st hinv hfuel
    obtain ⟨st1, h1, hinv1, hsti, hpres1⟩ :=
      getStatus_dag init refs rank hrank fuel i st none hinv (hfuel i (List.mem_cons_self _ _))
        (fun l hl => Option.noConfusion hl)
    have hkeep1 : ∀ j, st j = specStatus init refs rank j → st1 j = specStatus init refs rank j := by
      intro j hj
      by_cases h0 : st j = STATUS_UNKNOWN
      · rcases hinv1 j with ⟨hz, _⟩ | hS
        · rw [hz, ← h0, hj]
        · exact hS
      · rw [hpres1 j h0, hj]
    obtain ⟨vs, st', h2, hinv', hkeep, hall⟩ :=
      ihq fuel st1 hinv1 (fun x hx => hfuel x (List.mem_cons_of_mem _ hx))
    refine ⟨specStatus init refs rank i :: vs, st', ?_, hinv', ?_, ?_⟩
    · rw [queryList]
      simp only [h1, h2]
    · intro j hj
      exact hkeep j (hkeep1 j hj)
    · intro j hj
      rcases List.mem_cons.mp hj with rfl | hj
    
      · exact hkeep j hsti
      · exact hall j hj

/-- Chunking a byte list whose length is a multiple of the word width
yields exactly `length / w` words. -/
theorem toWordsAux_length (w : Nat) (hw : 0 < w) :
    ∀ (fuel k : Nat) (bs : List Nat), bs.length = k * w → bs.length ≤ fuel →
      (toWordsAux w fuel bs).length = k := by
  intro fuel
  induction fuel with
  | zero =>
    intro k bs hk hle
    have hb : bs = [] := List.eq_nil_of_length_eq_zero (by omega)
    subst hb
    simp only [List.length_nil] at hk
    rcases Nat.mul_eq_zero.mp hk.symm with h | h
    · simp [toWordsAux, h]
    · omega
  | succ f ihf =>
    intro k bs hk hle
    rw [toWordsAux]
    by_cases hbs : bs = []
    · rw [if_pos hbs]
      subst hbs
      simp only [List.length_nil] at hk
      rcases Nat.mul_eq_zero.mp hk.symm with h | h
      · simp [h]
      · omega
    · rw [if_neg hbs]
      have hlen : 0 < bs.length := List.length_pos.mpr hbs
      have hkpos : 0 < k := by
        rcases Nat.eq_zero_or_pos k with h | h
        · rw [h, Nat.zero_mul] at hk
          omega
        · exact h
      have hdrop : (bs.drop w).length = (k - 1) * w := by
        rw [List.length_drop, hk, Nat.sub_mul, Nat.one_mul]
      have hrec := ihf (k - 1) (bs.drop w) hdrop (by rw [List.length_drop]; omega)
      simp only [List.length_cons, hrec]
      omega

/-! ## Claim theorems -/

/-- C1: in the six-block session (4-byte words; root R with words
[0x20000000, 0x40000000], A [0x30000000], B [0], C [0], D [0x60000000],
E [0]), resolution yields A = DirectlyReachable, B = IndirectlyReachable,
C = DirectlyReachable, D = DirectlyLost, E = IndirectlyLost; the heap
summary counts 5 non-root blocks totalling 20 bytes, and the leak summary
reports 4 bytes in 1 directly-lost block (D), 4 bytes in 1
indirectly-lost block (E) and 12 bytes in 3 still-reachable blocks
(A, B, C). -/
theorem c1_end_to_end :
    analyzeTrace c1blocks 32 = some c1trace ∧
    analyzeSummary c1blocks 32 = some ⟨20, 5, 4, 1, 4, 1, 12, 3⟩ :=
  ⟨rfl, rfl⟩

/-- C2 (divergence at the failing input): in the session `cycBlocks` —
block B referenced by X, X and W referencing each other — resolving
block B's status never completes, for any recursion depth: the single
in-flight marker guards only the first-queried block, so the X/W cycle
recurses without bound (`RecursionError` in Python). -/
theorem cyc_diverges_aux :
    ∀ fuel, getStatusF (computeRefs cycBlocks) fuel (initSt cycBlocks) 1 (some 0) = none ∧
      getStatusF (computeRefs cycBlocks) fuel (initSt cycBlocks) 2 (some 0) = none := by
  intro fuel
  induction fuel with
  | zero => exact ⟨rfl, rfl⟩
  | succ f ih =>
    constructor
    · rw [getStatusF, if_neg (by decide)]
      have hr : computeRefs cycBlocks 1 = [2] := rfl
      rw [hr]
      dsimp only
      simp only [resolveRefs, Option.getD_some, ih.2]
    · rw [getStatusF, if_neg (by decide)]
      have hr : computeRefs cycBlocks 2 = [1] := rfl
      rw [hr]
      dsimp only
      simp only [resolveRefs, Option.getD_some, ih.1]

/-- C2: the resolution of block B in the cyclic session diverges — the
claim that resolution terminates for every session fails on reference
cycles that do not pass through the first-queried block. -/
theorem c2_divergence : getStatusDiverges (computeRefs cycBlocks) (initSt cycBlocks) 0 := by
  intro fuel
  cases fuel with
  | zero => rfl
  | succ f =>
    rw [getStatusF, if_neg (by decide)]
    have hr : computeRefs cycBlocks 0 = [1] := rfl
    rw [hr]
    dsimp only
    simp only [resolveRefs, Option.getD_none, (cyc_diverges_aux f).1]

/-- C3 (counterexample): in the acyclic chain session D ← E ← F ← G (no
block is reachable from itself, so no subset of blocks forms a closed
cycle), block G still has status Unknown after resolution completes, and
its referencing set [F] is nonempty — refuting the claim that a block can
remain Unknown only when its referencers form a closed rootless cycle. -/
theorem c3_counterexample :
    ((List.range 4).all (fun i => !(reachesWithin (computeRefs chainBlocks) 4 i i))) = true ∧
    analyzeTrace chainBlocks 32 = some chainTrace ∧
    computeRefs chainBlocks 3 = [2] ∧
    chainTrace.ss1.getD 3 0 = STATUS_UNKNOWN := by
  exact ⟨by decide, rfl, rfl, rfl⟩

/-- C3 (amended): when a top-level `get_status` call returns Unknown, the
block has a nonempty referencing set and the maximum status computed over
its referencers is at most IndirectlyLost — either an unresolved cycle
(maximum Unknown) or the ordinal decrement bottoming out (maximum
IndirectlyLost); a closed rootless cycle is not required. -/
theorem c3_amended_unknown_origin :
    ∀ (refs : Nat → List Nat) (fuel : Nat) (st : Nat → Nat) (i : Nat) (st' : Nat → Nat),
      getStatusF refs (fuel + 1) st i none = some (STATUS_UNKNOWN, st') →
      refs i ≠ [] ∧
      ∃ ss st1,
        resolveRefs (fun s j => getStatusF refs fuel s j (some i)) st (refs i) = some (ss, st1) ∧
        ss.foldl max 0 ≤ STATUS_INDIRECTLY_LOST := by
  intro refs fuel st i st' h
  rw [getStatusF] at h
  split at h
  · rename_i hc
    simp only [Option.some.injEq, Prod.mk.injEq] at h
    rcases hc with hne | habs
    · exact absurd h.1 hne
    · exact Option.noConfusion habs
  · split at h
    · simp only [Option.some.injEq, Prod.mk.injEq] at h
      exact absurd h.1 (by decide)
    · rename_i r rs hr
      split at h
      · exact Option.noConfusion h
      · rename_i ss st1 hres
        constructor
        · rw [hr]
          simp
        · refine ⟨ss, st1, ?_, ?_⟩
          · rw [hr]
            exact hres
          · split at h
            · rename_i hb
              rw [hb]
              decide
            · rename_i hb
              simp only [Option.some.injEq, Prod.mk.injEq] at h
              have h1 := h.1
              simp only [STATUS_UNKNOWN, STATUS_INDIRECTLY_LOST] at *
              omega

/-- C3 amended, instantiated: querying block G of the chain session
returns Unknown; its referencing list is nonempty and the maximum over
its referencers' statuses is at most IndirectlyLost. -/
theorem c3_witness :
    computeRefs chainBlocks 3 ≠ [] ∧
    ∃ ss st1,
      resolveRefs (fun s j => getStatusF (computeRefs chainBlocks) 32 s j (some 3))
        (initSt chainBlocks) (computeRefs chainBlocks 3) = some (ss, st1) ∧
      ss.foldl max 0 ≤ STATUS_INDIRECTLY_LOST :=
  c3_amended_unknown_origin (computeRefs chainBlocks) 32 (initSt chainBlocks) 3 _ rfl

/-- C4: block construction fails (`InvalidBlockData`) exactly when neither
conversion path applies.  For a packed byte buffer: exactly when the byte
length is not a multiple of the word width (the fallback re-checks the
same buffer).  For an integer sequence: exactly when some element exceeds
the word range and, in the fallback, some element is not a byte or the
element count is not a multiple of the word width.  No other failure path
exists: in every other case the constructor returns a block. -/
theorem c4_construction_failure :
    ∀ (w a s : Nat),
      (∀ bs : List Nat, mkBlock w a (BlockData.bytes bs) s = none ↔ ¬ bs.length % w = 0) ∧
      (∀ vs : List Nat, mkBlock w a (BlockData.ints vs) s = none ↔
        (¬ vs.all (fun v => v < 2 ^ (8 * w)) = true ∧
          (¬ vs.all (fun v => v < 256) = true ∨ ¬ vs.length % w = 0))) := by
  intro w a s
  constructor
  · intro bs
    rw [mkBlock, reinterpretDirect]
    by_cases h : bs.length % w = 0
    · rw [if_pos h]
      simp [h]
    · rw [if_neg h]
      rw [reinterpretViaBytes, toBytes]
      dsimp only
      rw [if_neg h]
      simp [h]
  · intro vs
    rw [mkBlock, reinterpretDirect]
    by_cases h1 : vs.all (fun v => v < 2 ^ (8 * w)) = true
    · rw [if_pos h1]
      simp [h1]
    · rw [if_neg h1]
      rw [reinterpretViaBytes, toBytes]
      dsimp only
      by_cases h2 : vs.all (fun v => v < 256) = true
      · rw [if_pos h2]
        dsimp only
        by_cases h3 : vs.length % w = 0
        · rw [if_pos h3]
          simp [h1, h2, h3]
        · rw [if_neg h3]
          simp [h1, h2, h3]
      · rw [if_neg h2]
        simp [h1, h2]

/-- C7 (counterexample): the root-only session's block has an empty
referencing set, yet resolving its status yields Root, not DirectlyLost —
the unqualified claim fails for blocks whose status is already resolved
(in particular roots). -/
theorem c7_counterexample :
    computeRefs rootOnly 0 = [] ∧
    getStatusF (computeRefs rootOnly) 1 (initSt rootOnly) 0 none
      = some (STATUS_ROOT, initSt rootOnly) ∧
    STATUS_ROOT ≠ STATUS_DIRECTLY_LOST :=
  ⟨rfl, rfl, by decide⟩

/-- C7 (amended): every block whose status is still Unknown when queried
(in particular every non-root block not yet resolved) and whose
referencing set is empty resolves to DirectlyLost. -/
theorem c7_amended_empty_refs :
    ∀ (refs : Nat → List Nat) (fuel : Nat) (st : Nat → Nat) (i : Nat),
      st i = STATUS_UNKNOWN → refs i = [] →
      getStatusF refs (fuel + 1) st i none
        = some (STATUS_DIRECTLY_LOST, setSt st i STATUS_DIRECTLY_LOST) := by
  intro refs fuel st i h0 hr
  rw [getStatusF, if_neg (by simp [h0]), hr]

/-- C7 amended, instantiated at a concrete Unknown block with no
referencers. -/
theorem c7_witness :
    zeroSt 0 = STATUS_UNKNOWN ∧ noRefs 0 = [] ∧
    getStatusF noRefs 1 zeroSt 0 none
      = some (STATUS_DIRECTLY_LOST, setSt zeroSt 0 STATUS_DIRECTLY_LOST) :=
  ⟨rfl, rfl, c7_amended_empty_refs noRefs 0 zeroSt 0 rfl rfl⟩

/-- C8: once a block's status is any non-Unknown value, no later sequence
of top-level status queries — on it or on any other block — changes it.
(Graph construction and report aggregation never write `status` at all:
`computeRefs` and `summaryOf` do not touch the status state.) -/
theorem c8_status_immutable :
    ∀ (refs : Nat → List Nat) (fuel : Nat) (st : Nat → Nat) (qs vs : List Nat) (st' : Nat → Nat),
      queryList refs fuel st qs = some (vs, st') →
      ∀ j, st j ≠ STATUS_UNKNOWN → st' j = st j :=
  fun _ _ st qs vs st' h j hj => queryList_preserve qs st vs st' h j hj

/-- C8 instantiated: a pass that resolves block 0 to DirectlyLost leaves
root block 1's status untouched. -/
theorem c8_witness :
    oneRootSt 1 ≠ STATUS_UNKNOWN ∧
    setSt oneRootSt 0 STATUS_DIRECTLY_LOST 1 = oneRootSt 1 :=
  ⟨by decide,
   c8_status_immutable noRefs 2 oneRootSt [0] [STATUS_DIRECTLY_LOST]
     (setSt oneRootSt 0 STATUS_DIRECTLY_LOST) rfl 1 (by decide)⟩

/-- C9: a non-root Unknown block whose only referencer resolves to
IndirectlyLost is assigned Unknown (`refstatus - 1` bottoms out); in the
acyclic chain D ← E ← F ← G the blocks two and more hops below the
directly-lost head (F at hop 2, G at hop 3) end Unknown and appear in no
leak bucket — the 16-byte 4-block heap summary counts them while the leak
summary reports only D (4 bytes directly lost) and E (4 bytes indirectly
lost). -/
theorem c9_decrement_bottom :
    (∀ (refs : Nat → List Nat) (fuel : Nat) (st : Nat → Nat) (i j : Nat) (stj : Nat → Nat),
      st i = STATUS_UNKNOWN → refs i = [j] →
      getStatusF refs fuel st j (some i) = some (STATUS_INDIRECTLY_LOST, stj) →
      getStatusF refs (fuel + 1) st i none
        = some (STATUS_UNKNOWN, setSt stj i STATUS_UNKNOWN)) ∧
    analyzeTrace chainBlocks 32 = some chainTrace ∧
    analyzeSummary chainBlocks 32 = some ⟨16, 4, 4, 1, 4, 1, 0, 0⟩ := by
  refine ⟨?_, rfl, rfl⟩
  intro refs fuel st i j stj h0 hr hj
  rw [getStatusF, if_neg (by simp [h0]), hr]
  dsimp only
  simp only [resolveRefs, Option.getD_none, hj]
  rfl

/-- C9 instantiated on the chain graph 0 ← 1 ← 2: block 1 resolves to
IndirectlyLost and block 0, referenced only by block 1, is assigned
Unknown. -/
theorem c9_witness :
    zeroSt 0 = STATUS_UNKNOWN ∧
    getStatusF chainRefs 6 zeroSt 0 none
      = some (STATUS_UNKNOWN,
          setSt (setSt (setSt zeroSt 2 STATUS_DIRECTLY_LOST) 1 STATUS_INDIRECTLY_LOST)
            0 STATUS_UNKNOWN) :=
  ⟨rfl,
   c9_decrement_bottom.1 chainRefs 5 zeroSt 0 1
     (setSt (setSt zeroSt 2 STATUS_DIRECTLY_LOST) 1 STATUS_INDIRECTLY_LOST) rfl rfl rfl⟩

/-- C5 (counterexample): in the session `c5blocks` (root R → L, L and X
referencing each other, D referencing X), two runs that query the blocks
in orders [L, X, D, R] and [X, L, D, R] leave block X with different final
statuses (IndirectlyLost vs IndirectlyReachable) — final classification is
not independent of the order in which blocks are first queried. -/
theorem c5_counterexample :
    (queryList (computeRefs c5blocks) 32 (initSt c5blocks) [1, 2, 3, 0]).map (fun p => p.2 2)
      = some STATUS_INDIRECTLY_LOST ∧
    (queryList (computeRefs c5blocks) 32 (initSt c5blocks) [2, 1, 3, 0]).map (fun p => p.2 2)
      = some STATUS_INDIRECTLY_REACHABLE :=
  ⟨rfl, rfl⟩

/-- C5 (amended): on sessions whose reference graph is acyclic (witnessed
by a rank function decreasing along reference edges), any two complete
query orders terminate and assign the identical final status to every
block; order-dependence arises only through reference cycles. -/
theorem c5_amended_order_independence :
    ∀ (refs : Nat → List Nat) (init rank : Nat → Nat) (n fuel1 fuel2 : Nat) (o1 o2 : List Nat),
      (∀ i j, j ∈ refs i → rank j < rank i) →
      (∀ i, i ∈ o1 → rank i < fuel1) → (∀ i, i ∈ o2 → rank i < fuel2) →
      (∀ i, i < n → i ∈ o1) → (∀ i, i < n → i ∈ o2) →
      ∃ vs1 st1 vs2 st2,
        queryList refs fuel1 init o1 = some (vs1, st1) ∧
        queryList refs fuel2 init o2 = some (vs2, st2) ∧
        ∀ j, j < n → st1 j = st2 j := by
  intro refs init rank n fuel1 fuel2 o1 o2 hrank h1 h2 hc1 hc2
  obtain ⟨vs1, st1, e1, _, _, hall1⟩ :=
    queryList_dag init refs rank hrank o1 fuel1 init (dagInv_init init refs rank) h1
  obtain ⟨vs2, st2, e2, _, _, hall2⟩ :=
    queryList_dag init refs rank hrank o2 fuel2 init (dagInv_init init refs rank) h2
  exact ⟨vs1, st1, vs2, st2, e1, e2,
    fun j hj => by rw [hall1 j (hc1 j hj), hall2 j (hc2 j hj)]⟩

/-- C5 amended, instantiated on an empty two-block reference graph with
the two query orders [0, 1] and [1, 0]. -/
theorem c5_witness :
    ∃ vs1 st1 vs2 st2,
      queryList noRefs 1 zeroSt [0, 1] = some (vs1, st1) ∧
      queryList noRefs 1 zeroSt [1, 0] = some (vs2, st2) ∧
      ∀ j, j < 2 → st1 j = st2 j :=
  c5_amended_order_independence noRefs zeroSt (fun _ => 0) 2 1 1 [0, 1] [1, 0]
    (fun _ j hj => absurd hj (List.not_mem_nil j))
    (fun _ _ => Nat.zero_lt_one) (fun _ _ => Nat.zero_lt_one)
    (fun i hi => by interval_cases i <;> simp)
    (fun i hi => by interval_cases i <;> simp)

/-- C10: constructing a block from a packed byte buffer succeeds exactly
when the byte length is a multiple of the word width, and then the block's
size equals the byte length (word count times word width); otherwise
construction fails. -/
theorem c10_bytes_construction :
    ∀ (w a s : Nat) (bs : List Nat), 0 < w →
      (bs.length % w = 0 →
        mkBlock w a (BlockData.bytes bs) s
          = some ⟨a, toWords w bs, (toWords w bs).length * w, s⟩ ∧
        (toWords w bs).length * w = bs.length) ∧
      (¬ bs.length % w = 0 → mkBlock w a (BlockData.bytes bs) s = none) := by
  intro w a s bs hw
  constructor
  · intro hmod
    constructor
    · rw [mkBlock, reinterpretDirect, if_pos hmod]
    · rw [toWords]
      have hdvd : w ∣ bs.length := Nat.dvd_of_mod_eq_zero hmod
      have hlen := toWordsAux_length w hw bs.length (bs.length / w) bs
        (Nat.div_mul_cancel hdvd).symm le_rfl
      rw [hlen, Nat.div_mul_cancel hdvd]
  · intro hmod
    rw [mkBlock, reinterpretDirect, if_neg hmod]
    dsimp only
    rw [reinterpretViaBytes, toBytes]
    dsimp only
    rw [if_neg hmod]

/-- C10 instantiated: a 4-byte buffer at width 4 yields a 4-byte one-word
block, and a 3-byte buffer fails. -/
theorem c10_witness :
    (0:Nat) < 4 ∧
    mkBlock 4 0 (BlockData.bytes [1, 2, 3, 4]) 0
      = some ⟨0, toWords 4 [1, 2, 3, 4], (toWords 4 [1, 2, 3, 4]).length * 4, 0⟩ ∧
    (toWords 4 [1, 2, 3, 4]).length * 4 = 4 ∧
    mkBlock 4 0 (BlockData.bytes [1, 2, 3]) 0 = none := by
  refine ⟨by decide, ?_, ?_, ?_⟩
  · exact ((c10_bytes_construction 4 0 0 [1, 2, 3, 4] (by decide)).1 (by decide)).1
  · exact ((c10_bytes_construction 4 0 0 [1, 2, 3, 4] (by decide)).1 (by decide)).2
  · exact (c10_bytes_construction 4 0 0 [1, 2, 3] (by decide)).2 (by decide)

theorem range_getD {n k : Nat} (hk : k < n) : (List.range n).getD k 0 = k := by
  rw [List.getD_eq_getElem _ _ (by rw [List.length_range]; exact hk)]
  simp

theorem getD_mem_of_lt {l : List Nat} {k : Nat} (hk : k < l.length) : l.getD k 0 ∈ l := by
  rw [List.getD_eq_getElem _ _ hk]
  exact List.getElem_mem _

/-- C6: for every session whose blocks are created Unknown or Root, a
completed `analyze` reports leak-summary totals (definitely lost +
indirectly lost + still reachable) at most the heap-summary total over
non-root blocks, in bytes and in block counts; the totals are equal when
no block resolves to Unknown in the heap-summary pass.  Root blocks are
excluded from every aggregate by the status filters, and Unknown blocks
are counted only in the heap total. -/
theorem c6_leak_summary_bound :
    ∀ (blocks : List Block) (fuel : Nat) (t : Trace),
      blocks.all (fun b => b.status == STATUS_UNKNOWN || b.status == STATUS_ROOT) = true →
      analyzeTrace blocks fuel = some t →
      ((summaryOf blocks t).dBytes + (summaryOf blocks t).iBytes + (summaryOf blocks t).rBytes
          ≤ (summaryOf blocks t).heapBytes ∧
        (summaryOf blocks t).dBlocks + (summaryOf blocks t).iBlocks + (summaryOf blocks t).rBlocks
          ≤ (summaryOf blocks t).heapBlocks) ∧
      (t.ss1.all (fun v => !(v == STATUS_UNKNOWN)) = true →
        (summaryOf blocks t).dBytes + (summaryOf blocks t).iBytes + (summaryOf blocks t).rBytes
          = (summaryOf blocks t).heapBytes ∧
        (summaryOf blocks t).dBlocks + (summaryOf blocks t).iBlocks + (summaryOf blocks t).rBlocks
          = (summaryOf blocks t).heapBlocks) := by
  intro blocks fuel t hinit ht
  obtain ⟨st1, st2, st3, st4, st5, st6, h1, h2, h3, h4, h5, h6⟩ := analyzeTrace_eq ht
  have hnr : (List.range blocks.length).length = blocks.length := List.length_range _
  have l1 : t.ss1.length = blocks.length := (queryList_length _ _ _ _ h1).trans hnr
  have l4 : t.ss4.length = blocks.length := (queryList_length _ _ _ _ h4).trans hnr
  have l5 : t.ss5.length = blocks.length := (queryList_length _ _ _ _ h5).trans hnr
  have lb : t.bs6.length = blocks.length := (queryReach_length _ _ _ _ h6).trans hnr
  have hst0le : ∀ k, initSt blocks k ≤ STATUS_ROOT := by
    intro k
    rw [initSt, blockAt]
    by_cases hk : k < blocks.length
    · have hmem : blocks.getD k default ∈ blocks := by
        rw [List.getD_eq_getElem _ _ hk]
        exact List.getElem_mem _
      have hall := List.all_eq_true.mp hinit _ hmem
      simp only [Bool.or_eq_true, beq_iff_eq] at hall
      rcases hall with h | h <;> (rw [h]; try decide)
    · rw [List.getD_eq_default _ _ (le_of_not_lt hk)]
      decide
  have hss1le : ∀ x ∈ t.ss1, x ≤ STATUS_ROOT := (queryList_le _ _ _ _ h1 hst0le).1
  have hpost1 : ∀ k, k < blocks.length → t.ss1.getD k 0 ≠ STATUS_UNKNOWN →
      st1 k = t.ss1.getD k 0 := by
    intro k hk ha
    have hkr : k < (List.range blocks.length).length := by rw [hnr]; exact hk
    have := queryList_post _ _ _ _ h1 k hkr ha
    rwa [range_getD hk] at this
  -- a non-Unknown status reported by the heap pass is frozen through
  -- every later pass and reported identically there
  have hch : ∀ k, k < blocks.length → t.ss1.getD k 0 ≠ STATUS_UNKNOWN →
      t.ss4.getD k 0 = t.ss1.getD k 0 ∧ t.ss5.getD k 0 = t.ss1.getD k 0 ∧
      t.bs6.getD k false = (t.ss1.getD k 0 == STATUS_INDIRECTLY_REACHABLE
        || t.ss1.getD k 0 == STATUS_DIRECTLY_REACHABLE) := by
    intro k hk ha
    have hkr : k < (List.range blocks.length).length := by rw [hnr]; exact hk
    have e1 : st1 k = t.ss1.getD k 0 := hpost1 k hk ha
    have e1ne : st1 k ≠ STATUS_UNKNOWN := by rw [e1]; exact ha
    have e2 : st2 k = st1 k := queryList_preserve _ _ _ _ h2 k e1ne
    have e2ne : st2 k ≠ STATUS_UNKNOWN := by rw [e2]; exact e1ne
    have e3 : st3 k = st2 k := queryList_preserve _ _ _ _ h3 k e2ne
    have e3ne : st3 k ≠ STATUS_UNKNOWN := by rw [e3]; exact e2ne
    have v4 : t.ss4.getD k 0 = st3 k := by
      have := queryList_stable _ _ _ _ h4 k hkr (by rw [range_getD hk]; exact e3ne)
      rwa [range_getD hk] at this
    have e4 : st4 k = st3 k := queryList_preserve _ _ _ _ h4 k e3ne
    have e4ne : st4 k ≠ STATUS_UNKNOWN := by rw [e4]; exact e3ne
    have v5 : t.ss5.getD k 0 = st4 k := by
      have := queryList_stable _ _ _ _ h5 k hkr (by rw [range_getD hk]; exact e4ne)
      rwa [range_getD hk] at this
    have e5 : st5 k = st4 k := queryList_preserve _ _ _ _ h5 k e4ne
    have e5ne : st5 k ≠ STATUS_UNKNOWN := by rw [e5]; exact e4ne
    have v6 : t.bs6.getD k false = (st5 k == STATUS_INDIRECTLY_REACHABLE
        || st5 k == STATUS_DIRECTLY_REACHABLE) := by
      have := queryReach_stable _ _ _ _ h6 k hkr (by rw [range_getD hk]; exact e5ne)
      rwa [range_getD hk] at this
    refine ⟨?_, ?_, ?_⟩
    · rw [v4, e3, e2, e1]
    · rw [v5, e4, e3, e2, e1]
    · rw [v6, e5, e4, e3, e2, e1]
  -- a block reported DirectlyLost in pass 4 stays so in passes 5 and 6
  have hd2 : ∀ k, k < blocks.length → t.ss4.getD k 0 = STATUS_DIRECTLY_LOST →
      t.ss5.getD k 0 = STATUS_DIRECTLY_LOST ∧ t.bs6.getD k false = false := by
    intro k hk hb
    have hkr : k < (List.range blocks.length).length := by rw [hnr]; exact hk
    have p4 : st4 k = t.ss4.getD k 0 := by
      have := queryList_post _ _ _ _ h4 k hkr (by rw [hb]; decide)
      rwa [range_getD hk] at this
    have p4ne : st4 k ≠ STATUS_UNKNOWN := by rw [p4, hb]; decide
    have v5 : t.ss5.getD k 0 = st4 k := by
      have := queryList_stable _ _ _ _ h5 k hkr (by rw [range_getD hk]; exact p4ne)
      rwa [range_getD hk] at this
    have e5 : st5 k = st4 k := queryList_preserve _ _ _ _ h5 k p4ne
    have e5ne : st5 k ≠ STATUS_UNKNOWN := by rw [e5]; exact p4ne
    have v6 : t.bs6.getD k false = (st5 k == STATUS_INDIRECTLY_REACHABLE
        || st5 k == STATUS_DIRECTLY_REACHABLE) := by
      have := queryReach_stable _ _ _ _ h6 k hkr (by rw [range_getD hk]; exact e5ne)
      rwa [range_getD hk] at this
    constructor
    · rw [v5, p4, hb]
    · rw [v6, e5, p4, hb]
      decide
  -- a block reported IndirectlyLost in pass 5 is not reachable in pass 6
  have hi1 : ∀ k, k < blocks.length → t.ss5.getD k 0 = STATUS_INDIRECTLY_LOST →
      t.bs6.getD k false = false := by
    intro k hk hc
    have hkr : k < (List.range blocks.length).length := by rw [hnr]; exact hk
    have p5 : st5 k = t.ss5.getD k 0 := by
      have := queryList_post _ _ _ _ h5 k hkr (by rw [hc]; decide)
      rwa [range_getD hk] at this
    have p5ne : st5 k ≠ STATUS_UNKNOWN := by rw [p5, hc]; decide
    have v6 : t.bs6.getD k false = (st5 k == STATUS_INDIRECTLY_REACHABLE
        || st5 k == STATUS_DIRECTLY_REACHABLE) := by
      have := queryReach_stable _ _ _ _ h6 k hkr (by rw [range_getD hk]; exact p5ne)
      rwa [range_getD hk] at this
    rw [v6, p5, hc]
    decide
  -- pointwise comparison of the per-block contributions
  have hkey : ∀ k, k < blocks.length → ∀ m : Nat,
      ((if t.ss4.getD k 0 == STATUS_DIRECTLY_LOST then m else 0)
        + (if t.ss5.getD k 0 == STATUS_INDIRECTLY_LOST then m else 0)
        + (if t.bs6.getD k false then m else 0)
        ≤ (if !(t.ss1.getD k 0 == STATUS_ROOT) then m else 0)) ∧
      (t.ss1.getD k 0 ≠ STATUS_UNKNOWN →
        (if t.ss4.getD k 0 == STATUS_DIRECTLY_LOST then m else 0)
          + (if t.ss5.getD k 0 == STATUS_INDIRECTLY_LOST then m else 0)
          + (if t.bs6.getD k false then m else 0)
          = (if !(t.ss1.getD k 0 == STATUS_ROOT) then m else 0)) := by
    intro k hk m
    constructor
    · by_cases ha5 : t.ss1.getD k 0 = STATUS_ROOT
      · obtain ⟨v4, v5, v6⟩ := hch k hk (by rw [ha5]; decide)
        rw [v4, v5, v6, ha5]
        simp [STATUS_ROOT, STATUS_DIRECTLY_LOST, STATUS_INDIRECTLY_LOST,
          STATUS_INDIRECTLY_REACHABLE, STATUS_DIRECTLY_REACHABLE]
      · have hrhs : (if !(t.ss1.getD k 0 == STATUS_ROOT) then m else 0) = m := by
          rw [beq_eq_false_iff_ne.mpr ha5]
          simp
        rw [hrhs]
        by_cases hd : t.ss4.getD k 0 = STATUS_DIRECTLY_LOST
        · obtain ⟨w5, w6⟩ := hd2 k hk hd
          rw [hd, w5, w6]
          simp [STATUS_DIRECTLY_LOST, STATUS_INDIRECTLY_LOST]
        · have hdf : (t.ss4.getD k 0 == STATUS_DIRECTLY_LOST) = false :=
            beq_eq_false_iff_ne.mpr hd
          rw [hdf]
          by_cases hi : t.ss5.getD k 0 = STATUS_INDIRECTLY_LOST
          · have w6 := hi1 k hk hi
            rw [hi, w6]
            simp
          · have hif : (t.ss5.getD k 0 == STATUS_INDIRECTLY_LOST) = false :=
              beq_eq_false_iff_ne.mpr hi
            rw [hif]
            simp only [Bool.false_eq_true, if_false, Nat.zero_add]
            split
            · omega
            · omega
    · intro ha
      have hle : t.ss1.getD k 0 ≤ STATUS_ROOT :=
        hss1le _ (getD_mem_of_lt (by rw [l1]; exact hk))
      obtain ⟨v4, v5, v6⟩ := hch k hk ha
      rw [v4, v5, v6]
      simp only [STATUS_UNKNOWN] at ha
      simp only [STATUS_ROOT] at hle
      have hcases : t.ss1.getD k 0 = 1 ∨ t.ss1.getD k 0 = 2 ∨ t.ss1.getD k 0 = 3
          ∨ t.ss1.getD k 0 = 4 ∨ t.ss1.getD k 0 = 5 := by omega
      rcases hcases with h | h | h | h | h <;> rw [h] <;>
        simp [STATUS_ROOT, STATUS_DIRECTLY_LOST, STATUS_INDIRECTLY_LOST,
          STATUS_INDIRECTLY_REACHABLE, STATUS_DIRECTLY_REACHABLE]
  have hsum : ∀ (w : Nat → Nat),
      bucketW w t.ss4 (fun v => v == STATUS_DIRECTLY_LOST)
        + bucketW w t.ss5 (fun v => v == STATUS_INDIRECTLY_LOST)
        + bucketWB w t.bs6
        ≤ bucketW w t.ss1 (fun v => !(v == STATUS_ROOT)) := by
    intro w
    rw [bucketW, bucketW, bucketW, bucketWB, l1, l4, l5, lb,
      ← Finset.sum_add_distrib, ← Finset.sum_add_distrib]
    apply Finset.sum_le_sum
    intro k hkmem
    exact (hkey k (Finset.mem_range.mp hkmem) (w k)).1
  have hsumEq : t.ss1.all (fun v => !(v == STATUS_UNKNOWN)) = true → ∀ (w : Nat → Nat),
      bucketW w t.ss4 (fun v => v == STATUS_DIRECTLY_LOST)
        + bucketW w t.ss5 (fun v => v == STATUS_INDIRECTLY_LOST)
        + bucketWB w t.bs6
        = bucketW w t.ss1 (fun v => !(v == STATUS_ROOT)) := by
    intro hall w
    rw [bucketW, bucketW, bucketW, bucketWB, l1, l4, l5, lb,
      ← Finset.sum_add_distrib, ← Finset.sum_add_distrib]
    apply Finset.sum_congr rfl
    intro k hkmem
    have hk := Finset.mem_range.mp hkmem
    have ha : t.ss1.getD k 0 ≠ STATUS_UNKNOWN := by
      have := List.all_eq_true.mp hall _ (getD_mem_of_lt (by rw [l1]; exact hk))
      simpa using this
    exact (hkey k hk (w k)).2 ha
  exact ⟨⟨hsum (sizesOf blocks), hsum (fun _ => 1)⟩,
    fun hall => ⟨hsumEq hall (sizesOf blocks), hsumEq hall (fun _ => 1)⟩⟩

/-- C6 instantiated on the end-to-end session: 4 + 4 + 12 = 20 bytes and
1 + 1 + 3 = 5 blocks, with equality since no block resolves to Unknown. -/
theorem c6_witness :
    c1blocks.all (fun b => b.status == STATUS_UNKNOWN || b.status == STATUS_ROOT) = true ∧
    ((summaryOf c1blocks c1trace).dBytes + (summaryOf c1blocks c1trace).iBytes
        + (summaryOf c1blocks c1trace).rBytes ≤ (summaryOf c1blocks c1trace).heapBytes) ∧
    ((summaryOf c1blocks c1trace).dBytes + (summaryOf c1blocks c1trace).iBytes
        + (summaryOf c1blocks c1trace).rBytes = (summaryOf c1blocks c1trace).heapBytes) :=
  ⟨by decide,
   (c6_leak_summary_bound c1blocks 32 c1trace (by decide) rfl).1.1,
   ((c6_leak_summary_bound c1blocks 32 c1trace (by decide) rfl).2 (by decide)).1⟩
